import Mathlib

/-!
Shallow embedding of the implicit-relationship inference engine of
`DatabaseAnalyzer` (src/main.py).

Python strings are modelled as `List Char` (the inputs of interest are
ASCII, so `str.lower` is the ASCII case map).  The six compiled regular
expressions of `relation_patterns` are transcribed as total functions on
the already-lower-cased column name, following the Python `re` module's
leftmost / alternation-order / backtracking semantics, which were traced
by hand for each pattern (the transcription notes are inline).  Floating
point confidences are modelled as exact rationals: every confidence the
code manipulates is a sum of the decimal literals 0.5 .. 0.9 and 0.2,
which are exact in `ℚ`.

The database itself is external: schema introspection
(`metadata.reflect`) is a parameter of type `Except MetadataError
Catalog`, and the overlap query run by
`_calculate_relationship_confidence` is a parameter of type `Sampler`
(`none` models a raised exception, `some n` the returned count).
-/

/-- Convenience conversion from a string literal to the `List Char` model. -/
def cs (s : String) : List Char := s.toList

/-- ASCII case map used by Python's `str.lower` on the identifiers involved:
an upper-case letter (code 65..90) moves down by 32, everything else is kept. -/
def pyCharLower (c : Char) : Char :=
  if 65 ≤ c.toNat ∧ c.toNat ≤ 90 then Char.ofNat (c.toNat + 32) else c

/-- Python `name.lower()` on the `List Char` model. -/
def pyLower (s : List Char) : List Char := s.map pyCharLower

/-- Word characters of the regex class `\w` (ASCII fragment): letters, digits
and the underscore. -/
def isWordChar (c : Char) : Bool := c.isAlpha || c.isDigit || c == '_'

/-- Structural table-name prefixes stripped by `_normalize_table_name`, in the
alternation order of the regex `^(dim_|tb_|tbl_|tab_|fact_|fato_)`. -/
def table_prefixes : List (List Char) :=
  [cs "dim_", cs "tb_", cs "tbl_", cs "tab_", cs "fact_", cs "fato_"]

/-- The anchored substitution `re.sub(r'^(dim_|tb_|tbl_|tab_|fact_|fato_)', '', name)`:
the first alternative that is a prefix of the name is removed (at most one
substitution, since the pattern is anchored at the start). -/
def stripPref (s : List Char) : List Char :=
  match table_prefixes.find? (fun p => p.isPrefixOf s) with
  | some p => s.drop p.length
  | none => s

/-- The substitution `re.sub(r'(s|es|is)$', '', name)`.  The scan is leftmost:
at position `len-2` only the alternatives `es` and `is` can match (a single
`s` there is not followed by the end of the string), so a trailing `es` or
`is` loses two characters, otherwise a trailing `s` loses one.  The trailing
characters are read off the reversed name (`cs "se"` is `es` reversed,
`cs "si"` is `is` reversed). -/
def stripSfx (s : List Char) : List Char :=
  if s.reverse.take 2 = cs "se" ∨ s.reverse.take 2 = cs "si" then (s.reverse.drop 2).reverse
  else if s.reverse.take 1 = cs "s" then (s.reverse.drop 1).reverse
  else s

/-- `_normalize_table_name`: lower-case, strip one structural prefix, strip a
trailing plural-ish suffix, drop every underscore. -/
def _normalize_table_name (name : List Char) : List Char :=
  (stripSfx (stripPref (pyLower name))).filter (fun c => c ≠ '_')

/-- The substitution `re.sub(r'[aeiou]', '', base_name)`: every lower-case
vowel is removed (the pattern is compiled without IGNORECASE, and the base
name is already lower-cased). -/
def stripVowels (s : List Char) : List Char :=
  s.filter (fun c => c ∉ (['a', 'e', 'i', 'o', 'u'] : List Char))

/-- `_get_all_table_variations`: the normalized base name, its `s` and `es`
plurals and its vowel-stripped form, with set semantics (duplicates collapse;
iteration order of a Python set is unspecified, and no claim depends on it). -/
def _get_all_table_variations (table_name : List Char) : List (List Char) :=
  let base_name := _normalize_table_name table_name
  [base_name, base_name ++ cs "s", base_name ++ cs "es", stripVowels base_name].dedup

/-- The six pattern identifiers of `relation_patterns`, in dict insertion
order. -/
inductive PatternId where
  | id_pattern
  | fk_pattern
  | table_id_pattern
  | ref_pattern
  | cod_pattern
  | num_pattern
deriving DecidableEq, Repr

open PatternId

/-- Matcher for the prefixed-shape regexes `^(?:P1|P2)(\w+)$` (used by
`id_pattern`, `fk_pattern`, `ref_pattern`, `cod_pattern`, `num_pattern`):
the engine tries alternative `p1` first; a branch succeeds when the
remaining characters are a non-empty run of word characters, which is then
the captured group.  Backtracking into the second alternative is faithful:
when the first branch's `\w+$` fails the engine retries with `p2`. -/
def matchTwoPre (p1 p2 : List Char) (s : List Char) : Option (List Char) :=
  if p1.isPrefixOf s ∧ s.drop p1.length ≠ [] ∧ (s.drop p1.length).all isWordChar then
    some (s.drop p1.length)
  else if p2.isPrefixOf s ∧ s.drop p2.length ≠ [] ∧ (s.drop p2.length).all isWordChar then
    some (s.drop p2.length)
  else none

/-- One suffix branch of `^(\w+)_(?:id|cd|codigo)$`: when `tail` (underscore
included) ends the name and the part before it is a non-empty run of word
characters, that part is the captured group. -/
def matchTailSfx (tail : List Char) (s : List Char) : Option (List Char) :=
  let g := s.take (s.length - tail.length)
  if tail.isSuffixOf s ∧ g ≠ [] ∧ g.all isWordChar then some g else none

/-- Matcher for `^(\w+)_(?:id|cd|codigo)$`.  The greedy `(\w+)` backtracks to
the rightmost underscore whose remainder is exactly one of `id`, `cd`,
`codigo`; since the name must end in that alternative, at most one of the
three suffixes `_id`, `_cd`, `_codigo` can match (their last letters
differ), so the split is unique. -/
def matchTableIdShape (s : List Char) : Option (List Char) :=
  match matchTailSfx (cs "_id") s with
  | some g => some g
  | none =>
    match matchTailSfx (cs "_cd") s with
    | some g => some g
    | none => matchTailSfx (cs "_codigo") s

/-- Application of one named pattern of `relation_patterns` to a (lower-cased)
column name, returning the captured group.  The IGNORECASE flag of the
compiled regexes is inert here because `find_implicit_relationships` lowers
the column name before matching. -/
def applyPattern (p : PatternId) (s : List Char) : Option (List Char) :=
  match p with
  | id_pattern => matchTwoPre (cs "id_") (cs "id") s
  | fk_pattern => matchTwoPre (cs "fk_") (cs "fk") s
  | table_id_pattern => matchTableIdShape s
  | ref_pattern => matchTwoPre (cs "ref_") (cs "reference_") s
  | cod_pattern => matchTwoPre (cs "cod_") (cs "codigo_") s
  | num_pattern => matchTwoPre (cs "num_") (cs "numero_") s

/-- Dict insertion order of `relation_patterns`. -/
def patternOrder : List PatternId :=
  [id_pattern, fk_pattern, table_id_pattern, ref_pattern, cod_pattern, num_pattern]

/-- The `matches` dict built for one column: every pattern that matches,
paired with its captured group, in `relation_patterns` order. -/
def patternMatches (column_name : List Char) : List (PatternId × List Char) :=
  patternOrder.filterMap (fun p => (applyPattern p column_name).map (fun g => (p, g)))

/-- A column of the reflected metadata: its name, and whether
`column.foreign_keys` is non-empty (a declared foreign-key constraint). -/
structure Column where
  name : List Char
  hasForeignKey : Bool
deriving DecidableEq, Repr

/-- A table of the reflected metadata: its catalog name and its columns. -/
structure Table where
  name : List Char
  columns : List Column
deriving DecidableEq, Repr

/-- The reflected catalog `metadata.tables`, in iteration order.  Table names
are unique in the real dict; claims that need this uniqueness take it as a
hypothesis. -/
abbrev Catalog := List Table

/-- The data sampler collaborator: given source table, source column and
target table it returns the count of the overlap query, or `none` when the
call raises (engine unavailable, SQL error, ...). -/
abbrev Sampler := List Char → List Char → List Char → Option Nat

/-- The dict `pattern_confidence` of `_calculate_relationship_confidence`. -/
def pattern_confidence : List (PatternId × ℚ) :=
  [(id_pattern, 0.8), (fk_pattern, 0.9), (table_id_pattern, 0.85),
   (ref_pattern, 0.7), (cod_pattern, 0.6), (num_pattern, 0.5)]

/-- `pattern_confidence.get(pattern_type, 0.3)`. -/
def baseWeight (p : PatternId) : ℚ :=
  ((pattern_confidence.find? (fun q => q.1 == p)).map (fun q => q.2)).getD 0.3

/-- `_calculate_relationship_confidence`: the pattern's base weight, plus 0.2
when the sampler reports a positive overlap count (a raised exception is
caught, logged as a warning, and contributes no bonus), clamped by
`min(1.0, confidence)`. -/
def _calculate_relationship_confidence (sampler : Sampler)
    (source_table target_table column_name : List Char) (p : PatternId) : ℚ :=
  let confidence := baseWeight p
  let confidence :=
    match sampler source_table column_name target_table with
    | some result => if 0 < result then confidence + 0.2 else confidence
    | none => confidence
  min 1 confidence

/-- One candidate-relationship record appended to
`relationships[source_table_name]` (the source table is the dict key, not a
field, exactly as in the code). -/
structure Candidate where
  source_column : List Char
  target_table : List Char
  pattern_matched : PatternId
  confidence : ℚ
  suggested_relationship : List Char
deriving DecidableEq, Repr

/-- The dict comprehension
`{self._normalize_table_name(name): name for name in self.metadata.tables.keys()}`
read back at one key: later tables overwrite earlier ones, so the lookup
finds the last table whose normalized name is the key. -/
def lookupNormalized (cat : Catalog) (key : List Char) : Option (List Char) :=
  (cat.reverse.find? (fun t => _normalize_table_name t.name == key)).map (fun t => t.name)

/-- The candidate record built at the innermost loop of
`find_implicit_relationships`. -/
def mkCandidate (sampler : Sampler) (source_table target_table column_name : List Char)
    (p : PatternId) : Candidate :=
  { source_column := column_name
  , target_table := target_table
  , pattern_matched := p
  , confidence := _calculate_relationship_confidence sampler source_table target_table column_name p
  , suggested_relationship :=
      source_table ++ ('.' :: column_name) ++ cs " -> " ++ target_table ++ cs ".id" }

/-- Candidates contributed by one column of one source table: skipped when the
column has a declared foreign key; otherwise, for every matching pattern and
every table-name variation of the captured group that resolves to a table
other than the source, one candidate. -/
def candidatesForColumn (cat : Catalog) (sampler : Sampler)
    (source_table : List Char) (col : Column) : List Candidate :=
  if col.hasForeignKey then []
  else
    let column_name := pyLower col.name
    (patternMatches column_name).flatMap (fun pm =>
      (_get_all_table_variations pm.2).filterMap (fun v =>
        match lookupNormalized cat v with
        | none => none
        | some target_table =>
          if target_table = source_table then none
          else some (mkCandidate sampler source_table target_table column_name pm.1)))

/-- `find_implicit_relationships`: the defaultdict grouped by source table,
converted to a plain dict — only source tables with at least one candidate
appear as keys. -/
def find_implicit_relationships (cat : Catalog) (sampler : Sampler) :
    List (List Char × List Candidate) :=
  (cat.map (fun t => (t.name, t.columns.flatMap (candidatesForColumn cat sampler t.name)))).filter
    (fun e => !e.2.isEmpty)

/-- The analysis dict returned by `analyze_and_suggest_relationships` (the
recommendation-building block is commented out in the source, so
`recommendations` stays the empty list it is initialized to). -/
structure AnalysisReport where
  relationships : List (List Char × List Candidate)
  total_implicit_relationships : Nat
  tables_with_implicit_relations : Nat
  high_confidence_relations : Nat
  recommendations : List (List Char)
deriving DecidableEq, Repr

/-- `analyze_and_suggest_relationships`. -/
def analyze_and_suggest_relationships (cat : Catalog) (sampler : Sampler) : AnalysisReport :=
  let implicit_relations := find_implicit_relationships cat sampler
  { relationships := implicit_relations
  , total_implicit_relationships := (implicit_relations.map (fun e => e.2.length)).sum
  , tables_with_implicit_relations := implicit_relations.length
  , high_confidence_relations :=
      ((implicit_relations.map (fun e => e.2)).flatten.filter (fun rel => rel.confidence ≥ 0.8)).length
  , recommendations := [] }

/-- Error raised when `metadata.reflect` fails; `_get_all_metadata` logs it
and re-raises. -/
structure MetadataError where
  message : List Char
deriving DecidableEq, Repr

/-- `_get_all_metadata`: the reflection outcome is passed in (the database is
an external collaborator); a failure is logged and re-raised unchanged. -/
def _get_all_metadata (reflected : Except MetadataError Catalog) :
    Except MetadataError Catalog :=
  match reflected with
  | Except.ok m => Except.ok m
  | Except.error e => Except.error e

/-- One whole run: `DatabaseAnalyzer.__init__` obtains the metadata (a failure
there propagates to the caller, constructing no analyzer), then
`analyze_and_suggest_relationships` produces the report. -/
def runAnalysis (reflected : Except MetadataError Catalog) (sampler : Sampler) :
    Except MetadataError AnalysisReport :=
  match _get_all_metadata reflected with
  | Except.error e => Except.error e
  | Except.ok cat => Except.ok (analyze_and_suggest_relationships cat sampler)

/-- Scenario A of the specification: a catalog with `dim_cliente` and
`fato_vendas`, the latter carrying the column `id_cliente` with no declared
foreign key. -/
def catScenarioA : Catalog :=
  [⟨cs "dim_cliente", [⟨cs "id", false⟩]⟩,
   ⟨cs "fato_vendas", [⟨cs "id_cliente", false⟩]⟩]

/-- A sampler whose overlap query always succeeds and finds matching rows. -/
def samplerWithOverlap : Sampler := fun _ _ _ => some 1

/-- A sampler whose overlap query always succeeds and finds no matching row. -/
def samplerNoOverlap : Sampler := fun _ _ _ => some 0

/-- A sampler whose every invocation raises. -/
def samplerFailing : Sampler := fun _ _ _ => none

/-- The catalog with every column that carries a declared foreign key removed
(used to state that such columns contribute nothing to the inference). -/
def dropDeclaredFK (cat : Catalog) : Catalog :=
  cat.map (fun t => ⟨t.name, t.columns.filter (fun c => !c.hasForeignKey)⟩)

/-- A candidate with its confidence forgotten (used to state that the sampler
influences only confidences, never which candidates appear). -/
def forgetConfidence (c : Candidate) : List Char × List Char × PatternId × List Char :=
  (c.source_column, c.target_table, c.pattern_matched, c.suggested_relationship)

/-- A grouped result with every confidence forgotten. -/
def forgetConfidences (rels : List (List Char × List Candidate)) :
    List (List Char × List (List Char × List Char × PatternId × List Char)) :=
  rels.map (fun e => (e.1, e.2.map forgetConfidence))

/-- The single candidate the engine finds in the scenario-A catalog: column
`id_cliente` of `fato_vendas` pointing at `dim_cliente` through `id_pattern`. -/
def candScenarioA (sampler : Sampler) : Candidate :=
  mkCandidate sampler (cs "fato_vendas") (cs "dim_cliente") (cs "id_cliente")
    PatternId.id_pattern

/-! Helper lemmas about the character-level case map and the name-stripping
functions. -/

/-- Reading back the code point of a character built from a valid code point. -/
theorem char_toNat_ofNat {n : Nat} (h : n < 55296) : (Char.ofNat n).toNat = n := by
  rw [Char.ofNat, dif_pos (Or.inl h)]
  simp [Char.ofNatAux, Char.toNat, UInt32.ofNat', UInt32.toNat, BitVec.toNat_ofNatLt]

/-- The output of the case map is never an upper-case ASCII letter. -/
theorem pyCharLower_not_upper (c : Char) :
    ¬(65 ≤ (pyCharLower c).toNat ∧ (pyCharLower c).toNat ≤ 90) := by
  unfold pyCharLower
  split_ifs with h
  · rw [char_toNat_ofNat (by omega)]
    omega
  · exact h

/-- The case map fixes every character that is not an upper-case ASCII letter. -/
theorem pyCharLower_fix (c : Char) (h : ¬(65 ≤ c.toNat ∧ c.toNat ≤ 90)) :
    pyCharLower c = c := by
  unfold pyCharLower
  rw [if_neg h]

/-- The case map is idempotent. -/
theorem pyCharLower_idem (c : Char) : pyCharLower (pyCharLower c) = pyCharLower c :=
  pyCharLower_fix (pyCharLower c) (pyCharLower_not_upper c)

/-- Lower-casing is idempotent. -/
theorem pyLower_idem (s : List Char) : pyLower (pyLower s) = pyLower s := by
  unfold pyLower
  rw [List.map_map]
  exact List.map_congr_left (fun a _ => pyCharLower_idem a)

/-- Characters of the prefix-stripped name come from the name. -/
theorem mem_of_mem_stripPref {a : Char} {s : List Char} (h : a ∈ stripPref s) : a ∈ s := by
  unfold stripPref at h
  split at h
  · exact List.drop_subset _ _ h
  · exact h

/-- Characters of the suffix-stripped name come from the name. -/
theorem mem_of_mem_stripSfx {a : Char} {s : List Char} (h : a ∈ stripSfx s) : a ∈ s := by
  unfold stripSfx at h
  split_ifs at h
  · exact List.mem_reverse.mp (List.drop_subset _ _ (List.mem_reverse.mp h))
  · exact List.mem_reverse.mp (List.drop_subset _ _ (List.mem_reverse.mp h))
  · exact h

/-- A normalized name contains no underscore. -/
theorem not_underscore_mem_normalize (x : List Char) : '_' ∉ _normalize_table_name x := by
  intro h
  unfold _normalize_table_name at h
  rw [List.mem_filter] at h
  simp at h

/-- Every character of a normalized name is fixed by the case map. -/
theorem pyLower_normalize (x : List Char) :
    pyLower (_normalize_table_name x) = _normalize_table_name x := by
  unfold pyLower
  have hfix : ∀ a ∈ _normalize_table_name x, pyCharLower a = a := by
    intro a ha
    unfold _normalize_table_name at ha
    rw [List.mem_filter] at ha
    have ha2 : a ∈ pyLower x := mem_of_mem_stripPref (mem_of_mem_stripSfx ha.1)
    obtain ⟨b, _, hb⟩ := List.mem_map.mp ha2
    rw [← hb]
    exact pyCharLower_idem b
  calc (_normalize_table_name x).map pyCharLower
      = (_normalize_table_name x).map id := List.map_congr_left (fun a ha => hfix a ha)
    _ = _normalize_table_name x := List.map_id _

/-- Prefix stripping fixes any name without an underscore (every structural
prefix ends in an underscore). -/
theorem stripPref_of_no_underscore {s : List Char} (h : '_' ∉ s) : stripPref s = s := by
  unfold stripPref
  rw [List.find?_eq_none.mpr]
  intro p hp hpre
  have hsub : List.Sublist p s := (List.isPrefixOf_iff_prefix.mp hpre).sublist
  apply h
  simp only [table_prefixes, cs, List.mem_cons] at hp
  rcases hp with h1 | h1 | h1 | h1 | h1 | h1 | h1
  · subst h1; exact hsub.mem (by decide)
  · subst h1; exact hsub.mem (by decide)
  · subst h1; exact hsub.mem (by decide)
  · subst h1; exact hsub.mem (by decide)
  · subst h1; exact hsub.mem (by decide)
  · subst h1; exact hsub.mem (by decide)
  · exact absurd h1 (List.not_mem_nil p)

/-- Ending in the letter `s` read off the reversed name. -/
theorem ends_in_s_iff (y : List Char) : cs "s" <:+ y ↔ y.reverse.take 1 = cs "s" := by
  constructor
  · intro h
    have h2 : (cs "s").reverse <+: y.reverse := List.reverse_prefix.mpr h
    have h3 := List.prefix_iff_eq_take.mp h2
    exact h3.symm
  · intro h
    have h2 : (cs "s").reverse <+: y.reverse := List.prefix_iff_eq_take.mpr h.symm
    exact List.reverse_prefix.mp h2

/-- Suffix stripping fixes any name that does not end in `s` (all three
alternatives of the suffix pattern end in `s`). -/
theorem stripSfx_of_not_ends_in_s {y : List Char} (h : ¬cs "s" <:+ y) : stripSfx y = y := by
  have h1 : y.reverse.take 1 ≠ cs "s" := fun hc => h ((ends_in_s_iff y).mpr hc)
  unfold stripSfx
  rw [if_neg, if_neg h1]
  intro hc
  apply h1
  rcases hc with hc | hc
  · calc y.reverse.take 1 = (y.reverse.take 2).take 1 := by rw [List.take_take]; norm_num
      _ = cs "s" := by rw [hc]; rfl
  · calc y.reverse.take 1 = (y.reverse.take 2).take 1 := by rw [List.take_take]; norm_num
      _ = cs "s" := by rw [hc]; rfl

/-- Unfolding equation of `_normalize_table_name`. -/
theorem normalize_def (s : List Char) :
    _normalize_table_name s = (stripSfx (stripPref (pyLower s))).filter (fun c => c ≠ '_') := rfl

/-- C4, counterexample.  The table name `ss` normalizes to `s` (one plural
strip), which normalizes again to the empty name, so normalization is not
idempotent as claimed. -/
theorem spec_C4_counterexample :
    _normalize_table_name (_normalize_table_name (cs "ss")) ≠ _normalize_table_name (cs "ss") := by
  decide

/-- C4 (amended).  Normalization is idempotent on every table name whose
normalized form does not end in the letter `s`: on such names the second
pass finds no prefix (normalized names carry no underscore, every structural
prefix does), no plural suffix (excluded by the hypothesis), and no
underscore to delete, and lower-casing is idempotent. -/
theorem spec_C4 (x : List Char) (h : ¬cs "s" <:+ _normalize_table_name x) :
    _normalize_table_name (_normalize_table_name x) = _normalize_table_name x := by
  rw [normalize_def (_normalize_table_name x), pyLower_normalize x,
    stripPref_of_no_underscore (not_underscore_mem_normalize x),
    stripSfx_of_not_ends_in_s h]
  rw [List.filter_eq_self]
  intro a ha
  simp only [decide_eq_true_eq]
  intro heq
  exact not_underscore_mem_normalize x (heq ▸ ha)

/-- C4, witness: the amended idempotence applied to the table name
`dim_cliente`, whose normalized form `cliente` does not end in `s`. -/
theorem spec_C4_witness :
    _normalize_table_name (_normalize_table_name (cs "dim_cliente"))
      = _normalize_table_name (cs "dim_cliente") :=
  spec_C4 (cs "dim_cliente") (by decide)

/-- C5, counterexample.  The variation set of `dim_cliente` is built from the
normalized base `cliente`, so the input token `dim_cliente` itself is not a
member. -/
theorem spec_C5_counterexample :
    cs "dim_cliente" ∉ _get_all_table_variations (cs "dim_cliente") := by
  decide

/-- C5 (amended).  For every token, the variation set is non-empty and
contains the normalized base token (the set starts from
`_normalize_table_name token`, not from the raw token, so only the
normalized base is guaranteed to be a member). -/
theorem spec_C5 (token : List Char) :
    _get_all_table_variations token ≠ [] ∧
      _normalize_table_name token ∈ _get_all_table_variations token := by
  have hmem : _normalize_table_name token ∈ _get_all_table_variations token := by
    simp only [_get_all_table_variations, List.mem_dedup]
    exact List.mem_cons_self _ _
  exact ⟨List.ne_nil_of_mem hmem, hmem⟩

/-- C8.  A failed catalog reflection propagates out of the run unchanged: the
caller receives the error itself and no report (partial or otherwise) is
produced. -/
theorem spec_C8 (e : MetadataError) (sampler : Sampler) :
    runAnalysis (Except.error e) sampler = Except.error e := rfl

/-- Evaluation of the base-weight table of
`_calculate_relationship_confidence`. -/
theorem baseWeight_eval (p : PatternId) :
    baseWeight p = (match p with
      | id_pattern => (0.8 : ℚ)
      | fk_pattern => 0.9
      | table_id_pattern => 0.85
      | ref_pattern => 0.7
      | cod_pattern => 0.6
      | num_pattern => 0.5) := by
  cases p <;> rfl

/-- Every base weight is non-negative. -/
theorem baseWeight_nonneg (p : PatternId) : 0 ≤ baseWeight p := by
  cases p <;> rw [baseWeight_eval] <;> norm_num

/-- Every base weight is at most one. -/
theorem baseWeight_le_one (p : PatternId) : baseWeight p ≤ 1 := by
  cases p <;> rw [baseWeight_eval] <;> norm_num

/-- C6.  The scored confidence is exactly `min(1, base + bonus)`, with the
base weight of the matched pattern as tabulated in the source and a bonus of
0.2 exactly when the sampler reports a positive overlap count; consequently
the confidence always lies in `[0, 1]`. -/
theorem spec_C6 (sampler : Sampler) (source_table target_table column_name : List Char)
    (p : PatternId) :
    _calculate_relationship_confidence sampler source_table target_table column_name p
      = min 1 ((match p with
          | id_pattern => (0.8 : ℚ)
          | fk_pattern => 0.9
          | table_id_pattern => 0.85
          | ref_pattern => 0.7
          | cod_pattern => 0.6
          | num_pattern => 0.5)
        + (match sampler source_table column_name target_table with
          | some result => if 0 < result then (0.2 : ℚ) else 0
          | none => 0)) ∧
    0 ≤ _calculate_relationship_confidence sampler source_table target_table column_name p ∧
    _calculate_relationship_confidence sampler source_table target_table column_name p ≤ 1 := by
  have hb := baseWeight_eval p
  have h0 := baseWeight_nonneg p
  simp only [_calculate_relationship_confidence]
  rcases hs : sampler source_table column_name target_table with _ | n
  · refine ⟨by rw [← hb, add_zero], le_min (by norm_num) h0, min_le_left _ _⟩
  · by_cases hn : 0 < n
    · simp only [if_pos hn]
      exact ⟨by rw [← hb], le_min (by norm_num) (add_nonneg h0 (by norm_num)), min_le_left _ _⟩
    · simp only [if_neg hn]
      exact ⟨by rw [← hb, add_zero], le_min (by norm_num) h0, min_le_left _ _⟩

/-- A column carrying a declared foreign key is skipped before any pattern is
tried, so it contributes no candidate. -/
theorem candidatesForColumn_of_fk (cat : Catalog) (sampler : Sampler)
    (source_table : List Char) (col : Column) (h : col.hasForeignKey = true) :
    candidatesForColumn cat sampler source_table col = [] := by
  simp [candidatesForColumn, h]

/-- Removing declared-foreign-key columns does not change the normalized
table-name lookup (it only looks at table names). -/
theorem lookupNormalized_dropDeclaredFK (cat : Catalog) (key : List Char) :
    lookupNormalized (dropDeclaredFK cat) key = lookupNormalized cat key := by
  unfold lookupNormalized dropDeclaredFK
  rw [← List.map_reverse, List.find?_map, Option.map_map]
  rfl

/-- Removing declared-foreign-key columns does not change the candidates any
single column produces. -/
theorem candidatesForColumn_dropDeclaredFK (cat : Catalog) (sampler : Sampler)
    (source_table : List Char) :
    candidatesForColumn (dropDeclaredFK cat) sampler source_table
      = candidatesForColumn cat sampler source_table := by
  funext col
  simp only [candidatesForColumn, lookupNormalized_dropDeclaredFK]

/-- Filtering out the foreign-key columns before flat-mapping a function that
sends them to the empty list changes nothing. -/
theorem flatMap_filter_not_fk (cols : List Column) (g : Column → List Candidate)
    (hg : ∀ c, c.hasForeignKey = true → g c = []) :
    (cols.filter (fun c => !c.hasForeignKey)).flatMap g = cols.flatMap g := by
  induction cols with
  | nil => rfl
  | cons c cols ih =>
    cases hfk : c.hasForeignKey
    · simp [List.filter_cons, hfk, ih]
    · simp [List.filter_cons, hfk, ih, hg c hfk]

/-- C2.  A column that carries a declared foreign-key constraint never
becomes the source of an inferred candidate: such a column produces no
candidate at all, and in fact deleting every declared-foreign-key column
from the catalog leaves the whole inference result unchanged. -/
theorem spec_C2 (cat : Catalog) (sampler : Sampler) (source_table : List Char) (col : Column)
    (h : col.hasForeignKey = true) :
    candidatesForColumn cat sampler source_table col = [] ∧
      find_implicit_relationships (dropDeclaredFK cat) sampler
        = find_implicit_relationships cat sampler := by
  refine ⟨candidatesForColumn_of_fk cat sampler source_table col h, ?_⟩
  unfold find_implicit_relationships
  congr 1
  simp only [candidatesForColumn_dropDeclaredFK]
  unfold dropDeclaredFK
  rw [List.map_map]
  apply List.map_congr_left
  intro t _
  exact congrArg (Prod.mk t.name)
    (flatMap_filter_not_fk _ _ (fun c hc => candidatesForColumn_of_fk cat sampler t.name c hc))

/-- C2, witness: a declared-foreign-key column named `id_cliente` in the
scenario-A catalog produces no candidate, and dropping such columns leaves
the result unchanged. -/
theorem spec_C2_witness :
    candidatesForColumn catScenarioA samplerNoOverlap (cs "fato_vendas")
        ⟨cs "id_cliente", true⟩ = [] ∧
      find_implicit_relationships (dropDeclaredFK catScenarioA) samplerNoOverlap
        = find_implicit_relationships catScenarioA samplerNoOverlap :=
  spec_C2 catScenarioA samplerNoOverlap (cs "fato_vendas") ⟨cs "id_cliente", true⟩ rfl

/-- Provenance of a candidate produced for one column: it was skipped by no
foreign-key guard, some pattern matched the lower-cased column name, and
some variation resolved to a target table different from the source. -/
theorem mem_candidatesForColumn {cat : Catalog} {sampler : Sampler} {src : List Char}
    {col : Column} {c : Candidate} (h : c ∈ candidatesForColumn cat sampler src col) :
    ∃ pm ∈ patternMatches (pyLower col.name), ∃ tgt : List Char, tgt ≠ src ∧
      c = mkCandidate sampler src tgt (pyLower col.name) pm.1 := by
  unfold candidatesForColumn at h
  by_cases hfk : col.hasForeignKey
  · rw [if_pos hfk] at h
    exact absurd h (List.not_mem_nil c)
  · rw [if_neg hfk] at h
    rw [List.mem_flatMap] at h
    obtain ⟨pm, hpm, h⟩ := h
    rw [List.mem_filterMap] at h
    obtain ⟨v, _, h⟩ := h
    rcases hl : lookupNormalized cat v with _ | tgt
    · simp only [hl] at h
      exact Option.noConfusion h
    · simp only [hl] at h
      by_cases ht : tgt = src
      · rw [if_pos ht] at h
        exact absurd h (Option.some_ne_none _).symm
      · rw [if_neg ht] at h
        exact ⟨pm, hpm, tgt, ht, (Option.some.inj h).symm⟩

/-- Provenance of one entry of the grouped result: its key is the name of a
catalog table and its value is the flat-mapped candidate list of that
table's columns. -/
theorem mem_find_implicit {cat : Catalog} {sampler : Sampler} {name : List Char}
    {cands : List Candidate} (h : (name, cands) ∈ find_implicit_relationships cat sampler) :
    ∃ t ∈ cat, t.name = name ∧
      cands = t.columns.flatMap (candidatesForColumn cat sampler t.name) := by
  unfold find_implicit_relationships at h
  rw [List.mem_filter] at h
  obtain ⟨hmem, _⟩ := h
  rw [List.mem_map] at hmem
  obtain ⟨t, ht, heq⟩ := hmem
  exact ⟨t, ht, congrArg Prod.fst heq, (congrArg Prod.snd heq).symm⟩

/-- C3.  No candidate ever points back at its own source table: the grouped
key of an entry never equals the target table of any candidate in it. -/
theorem spec_C3 (cat : Catalog) (sampler : Sampler) (source_table : List Char)
    (cands : List Candidate) (c : Candidate)
    (h1 : (source_table, cands) ∈ find_implicit_relationships cat sampler)
    (h2 : c ∈ cands) : c.target_table ≠ source_table := by
  obtain ⟨t, _, hname, hcands⟩ := mem_find_implicit h1
  rw [hcands, List.mem_flatMap] at h2
  obtain ⟨col, _, hc⟩ := h2
  obtain ⟨pm, _, tgt, htgt, hceq⟩ := mem_candidatesForColumn hc
  rw [hceq, ← hname]
  exact htgt

/-- The scenario-A catalog yields exactly one candidate, for any sampler:
`fato_vendas.id_cliente -> dim_cliente.id`. -/
theorem find_scenarioA (sampler : Sampler) :
    find_implicit_relationships catScenarioA sampler
      = [(cs "fato_vendas", [candScenarioA sampler])] := rfl

/-- C3, witness: the scenario-A candidate's target `dim_cliente` differs from
its source `fato_vendas`. -/
theorem spec_C3_witness :
    (candScenarioA samplerNoOverlap).target_table ≠ cs "fato_vendas" :=
  spec_C3 catScenarioA samplerNoOverlap (cs "fato_vendas") [candScenarioA samplerNoOverlap]
    (candScenarioA samplerNoOverlap)
    (by rw [find_scenarioA]; exact List.mem_singleton.mpr rfl)
    (List.mem_singleton.mpr rfl)

/-- With a sampler whose every call raises, the clamp is the identity and the
confidence is exactly the base weight. -/
theorem calc_with_samplerFailing (source_table target_table column_name : List Char)
    (p : PatternId) :
    _calculate_relationship_confidence samplerFailing source_table target_table column_name p
      = baseWeight p :=
  min_eq_right (baseWeight_le_one p)

/-- Which candidates a column produces does not depend on the sampler: the
sampler only enters the confidence field. -/
theorem forget_candidatesForColumn (cat : Catalog) (f g : Sampler) (src : List Char)
    (col : Column) :
    (candidatesForColumn cat f src col).map forgetConfidence
      = (candidatesForColumn cat g src col).map forgetConfidence := by
  unfold candidatesForColumn
  by_cases hfk : col.hasForeignKey
  · rw [if_pos hfk, if_pos hfk]
  · rw [if_neg hfk, if_neg hfk]
    rw [List.map_flatMap, List.map_flatMap]
    congr 1
    funext pm
    rw [List.map_filterMap, List.map_filterMap]
    congr 1
    funext v
    rcases hl : lookupNormalized cat v with _ | tgt
    · rfl
    · simp only [hl]
      by_cases ht : tgt = src
      · rw [if_pos ht, if_pos ht]
      · rw [if_neg ht, if_neg ht]
        rfl

/-- The grouped result, confidences forgotten, does not depend on the
sampler: every candidate that appears for one sampler appears for any
other, in the same group and position. -/
theorem forgetConfidences_find_implicit (cat : Catalog) (f g : Sampler) :
    forgetConfidences (find_implicit_relationships cat f)
      = forgetConfidences (find_implicit_relationships cat g) := by
  unfold forgetConfidences find_implicit_relationships
  suffices h : ∀ l : List Table,
      ((l.map (fun t =>
            (t.name, t.columns.flatMap (candidatesForColumn cat f t.name)))).filter
          (fun e => !e.2.isEmpty)).map (fun e => (e.1, e.2.map forgetConfidence))
        = ((l.map (fun t =>
            (t.name, t.columns.flatMap (candidatesForColumn cat g t.name)))).filter
          (fun e => !e.2.isEmpty)).map (fun e => (e.1, e.2.map forgetConfidence)) from
    h cat
  intro l
  induction l with
  | nil => rfl
  | cons t l ih =>
    have hmap : (t.columns.flatMap (candidatesForColumn cat f t.name)).map forgetConfidence
        = (t.columns.flatMap (candidatesForColumn cat g t.name)).map forgetConfidence := by
      rw [List.map_flatMap, List.map_flatMap]
      congr 1
      funext col
      exact forget_candidatesForColumn cat f g t.name col
    have hempty : (t.columns.flatMap (candidatesForColumn cat f t.name)).isEmpty
        = (t.columns.flatMap (candidatesForColumn cat g t.name)).isEmpty := by
      rcases hf : t.columns.flatMap (candidatesForColumn cat f t.name) with _ | ⟨a, as⟩ <;>
        rcases hg : t.columns.flatMap (candidatesForColumn cat g t.name) with _ | ⟨b, bs⟩
      · rfl
      · have hlen := congrArg List.length hmap
        rw [hf, hg] at hlen
        simp at hlen
      · have hlen := congrArg List.length hmap
        rw [hf, hg] at hlen
        simp at hlen
      · rfl
    simp only [List.map_cons, List.filter_cons, hempty]
    cases hg : (t.columns.flatMap (candidatesForColumn cat g t.name)).isEmpty <;>
      simp [hg, hmap, ih]

/-- C7.  When every sampler invocation raises, each candidate still appears
(the grouped result, confidences apart, is the same as for any other
sampler) and carries exactly the base weight of its pattern; the analysis
itself never aborts (all functions here are total). -/
theorem spec_C7 (cat : Catalog) (sampler : Sampler) (source_table : List Char)
    (cands : List Candidate) (c : Candidate)
    (h1 : (source_table, cands) ∈ find_implicit_relationships cat samplerFailing)
    (h2 : c ∈ cands) :
    c.confidence = baseWeight c.pattern_matched ∧
      forgetConfidences (find_implicit_relationships cat sampler)
        = forgetConfidences (find_implicit_relationships cat samplerFailing) := by
  refine ⟨?_, forgetConfidences_find_implicit cat sampler samplerFailing⟩
  obtain ⟨t, _, _, hcands⟩ := mem_find_implicit h1
  rw [hcands, List.mem_flatMap] at h2
  obtain ⟨col, _, hc⟩ := h2
  obtain ⟨pm, _, tgt, _, hceq⟩ := mem_candidatesForColumn hc
  rw [hceq]
  exact calc_with_samplerFailing t.name tgt (pyLower col.name) pm.1

/-- C7, witness: the scenario-A candidate under the always-raising sampler
keeps its base confidence, and the candidate structure matches the one
found under a succeeding sampler. -/
theorem spec_C7_witness :
    (candScenarioA samplerFailing).confidence
        = baseWeight (candScenarioA samplerFailing).pattern_matched ∧
      forgetConfidences (find_implicit_relationships catScenarioA samplerWithOverlap)
        = forgetConfidences (find_implicit_relationships catScenarioA samplerFailing) :=
  spec_C7 catScenarioA samplerWithOverlap (cs "fato_vendas") [candScenarioA samplerFailing]
    (candScenarioA samplerFailing)
    (by rw [find_scenarioA]; exact List.mem_singleton.mpr rfl)
    (List.mem_singleton.mpr rfl)

/-- Lower-casing a whole name is idempotent. -/
theorem pyLower_of_pyLower (s : List Char) : pyLower (pyLower s) = pyLower s :=
  pyLower_idem s

/-- C10.  The report's recommendations list is always empty (the block that
would fill it is commented out in the source), and every candidate's
suggested-relationship text is exactly
`<source table>.<lower-cased source column> -> <target table>.id` — in
particular the target column is always the literal `id`. -/
theorem spec_C10 (cat : Catalog) (sampler : Sampler) (source_table : List Char)
    (cands : List Candidate) (c : Candidate)
    (h1 : (source_table, cands) ∈ (analyze_and_suggest_relationships cat sampler).relationships)
    (h2 : c ∈ cands) :
    (analyze_and_suggest_relationships cat sampler).recommendations = [] ∧
      c.suggested_relationship
        = source_table ++ ('.' :: c.source_column) ++ cs " -> " ++ c.target_table ++ cs ".id" ∧
      pyLower c.source_column = c.source_column := by
  have h1' : (source_table, cands) ∈ find_implicit_relationships cat sampler := h1
  obtain ⟨t, _, hname, hcands⟩ := mem_find_implicit h1'
  rw [hcands, List.mem_flatMap] at h2
  obtain ⟨col, _, hc⟩ := h2
  obtain ⟨pm, _, tgt, _, hceq⟩ := mem_candidatesForColumn hc
  refine ⟨rfl, ?_, ?_⟩
  · rw [hceq, ← hname]
    rfl
  · rw [hceq]
    exact pyLower_of_pyLower col.name

/-- C10, witness: the scenario-A candidate's description is
`fato_vendas.id_cliente -> dim_cliente.id`, with an already-lower-cased
source column. -/
theorem spec_C10_witness :
    (analyze_and_suggest_relationships catScenarioA samplerNoOverlap).recommendations = [] ∧
      (candScenarioA samplerNoOverlap).suggested_relationship
        = cs "fato_vendas" ++ ('.' :: (candScenarioA samplerNoOverlap).source_column)
            ++ cs " -> " ++ (candScenarioA samplerNoOverlap).target_table ++ cs ".id" ∧
      pyLower (candScenarioA samplerNoOverlap).source_column
        = (candScenarioA samplerNoOverlap).source_column :=
  spec_C10 catScenarioA samplerNoOverlap (cs "fato_vendas") [candScenarioA samplerNoOverlap]
    (candScenarioA samplerNoOverlap)
    (by rw [show (analyze_and_suggest_relationships catScenarioA samplerNoOverlap).relationships
          = find_implicit_relationships catScenarioA samplerNoOverlap from rfl, find_scenarioA]
        exact List.mem_singleton.mpr rfl)
    (List.mem_singleton.mpr rfl)

/-- The scenario-A candidate's confidence under a sampler that confirms the
overlap: base 0.8 plus bonus 0.2, clamped at 1. -/
theorem candScenarioA_confidence_overlap :
    (candScenarioA samplerWithOverlap).confidence = 1 := by
  have h : (candScenarioA samplerWithOverlap).confidence
      = min 1 (baseWeight PatternId.id_pattern + 0.2) := rfl
  rw [h, baseWeight_eval]
  norm_num

/-- The scenario-A candidate's confidence under a sampler that finds no
overlap: the base 0.8 alone. -/
theorem candScenarioA_confidence_no_overlap :
    (candScenarioA samplerNoOverlap).confidence = 0.8 := by
  have h : (candScenarioA samplerNoOverlap).confidence
      = min 1 (baseWeight PatternId.id_pattern) := rfl
  rw [h, baseWeight_eval]
  exact min_eq_right (by norm_num)

/-- The scenario-A candidate's confidence under an always-raising sampler:
the base 0.8 alone. -/
theorem candScenarioA_confidence_failing :
    (candScenarioA samplerFailing).confidence = 0.8 := by
  have h : (candScenarioA samplerFailing).confidence = baseWeight PatternId.id_pattern :=
    calc_with_samplerFailing (cs "fato_vendas") (cs "dim_cliente") (cs "id_cliente")
      PatternId.id_pattern
  rw [h, baseWeight_eval]

/-- C1.  On the scenario-A catalog the engine emits, for `fato_vendas`, a
candidate matched by `id_pattern` with target `dim_cliente` whose
confidence is at least 0.8, namely exactly 1 when the sampler confirms a
data overlap and exactly the 0.8 base when the sampler finds no overlap or
raises. -/
theorem spec_C1 :
    (∃ e ∈ find_implicit_relationships catScenarioA samplerWithOverlap,
        e.1 = cs "fato_vendas" ∧ ∃ c ∈ e.2,
          c.pattern_matched = PatternId.id_pattern ∧ c.target_table = cs "dim_cliente" ∧
            (0.8 : ℚ) ≤ c.confidence ∧ c.confidence = 1) ∧
    (∃ e ∈ find_implicit_relationships catScenarioA samplerNoOverlap,
        e.1 = cs "fato_vendas" ∧ ∃ c ∈ e.2,
          c.pattern_matched = PatternId.id_pattern ∧ c.target_table = cs "dim_cliente" ∧
            c.confidence = 0.8) ∧
    (∃ e ∈ find_implicit_relationships catScenarioA samplerFailing,
        e.1 = cs "fato_vendas" ∧ ∃ c ∈ e.2,
          c.pattern_matched = PatternId.id_pattern ∧ c.target_table = cs "dim_cliente" ∧
            c.confidence = 0.8) := by
  refine ⟨⟨(cs "fato_vendas", [candScenarioA samplerWithOverlap]), ?_, rfl,
      candScenarioA samplerWithOverlap, List.mem_singleton.mpr rfl, rfl, rfl, ?_, ?_⟩,
    ⟨(cs "fato_vendas", [candScenarioA samplerNoOverlap]), ?_, rfl,
      candScenarioA samplerNoOverlap, List.mem_singleton.mpr rfl, rfl, rfl, ?_⟩,
    ⟨(cs "fato_vendas", [candScenarioA samplerFailing]), ?_, rfl,
      candScenarioA samplerFailing, List.mem_singleton.mpr rfl, rfl, rfl, ?_⟩⟩
  · rw [find_scenarioA]
    exact List.mem_singleton.mpr rfl
  · rw [candScenarioA_confidence_overlap]
    norm_num
  · exact candScenarioA_confidence_overlap
  · rw [find_scenarioA]
    exact List.mem_singleton.mpr rfl
  · exact candScenarioA_confidence_no_overlap
  · rw [find_scenarioA]
    exact List.mem_singleton.mpr rfl
  · exact candScenarioA_confidence_failing

/-- C9.  Report statistics: the total is the sum of the per-source-table
candidate counts, the high-confidence count (confidence at least 0.8) never
exceeds the total, and — table names being unique in a real catalog — the
table counter equals the number of distinct source tables, each of which
carries at least one candidate. -/
theorem spec_C9 (cat : Catalog) (sampler : Sampler) (h : (cat.map Table.name).Nodup) :
    (analyze_and_suggest_relationships cat sampler).total_implicit_relationships
        = ((analyze_and_suggest_relationships cat sampler).relationships.map
            (fun e => e.2.length)).sum ∧
      (analyze_and_suggest_relationships cat sampler).high_confidence_relations
        ≤ (analyze_and_suggest_relationships cat sampler).total_implicit_relationships ∧
      (analyze_and_suggest_relationships cat sampler).tables_with_implicit_relations
        = ((analyze_and_suggest_relationships cat sampler).relationships.map
            Prod.fst).dedup.length ∧
      ∀ e ∈ (analyze_and_suggest_relationships cat sampler).relationships, e.2 ≠ [] := by
  refine ⟨rfl, ?_, ?_, ?_⟩
  · show (((find_implicit_relationships cat sampler).map (fun e => e.2)).flatten.filter
        (fun rel => rel.confidence ≥ 0.8)).length
      ≤ ((find_implicit_relationships cat sampler).map (fun e => e.2.length)).sum
    calc (((find_implicit_relationships cat sampler).map (fun e => e.2)).flatten.filter
          (fun rel => rel.confidence ≥ 0.8)).length
        ≤ ((find_implicit_relationships cat sampler).map (fun e => e.2)).flatten.length :=
          List.length_filter_le _ _
      _ = (((find_implicit_relationships cat sampler).map (fun e => e.2)).map
            List.length).sum := List.length_flatten _
      _ = ((find_implicit_relationships cat sampler).map (fun e => e.2.length)).sum := by
          rw [List.map_map]
          rfl
  · show (find_implicit_relationships cat sampler).length
      = ((find_implicit_relationships cat sampler).map Prod.fst).dedup.length
    have hnodup : ((find_implicit_relationships cat sampler).map Prod.fst).Nodup := by
      unfold find_implicit_relationships
      have hsub := (List.filter_sublist (p := fun e : List Char × List Candidate => !e.2.isEmpty)
        (cat.map (fun t =>
          (t.name, t.columns.flatMap (candidatesForColumn cat sampler t.name))))).map Prod.fst
      rw [List.map_map] at hsub
      exact List.Nodup.sublist hsub h
    rw [List.dedup_eq_self.mpr hnodup, List.length_map]
  · intro e he
    have he2 := (List.mem_filter.mp he).2
    simp only [Bool.not_eq_true', List.isEmpty_eq_false] at he2
    exact he2

/-- C9, witness: the statistics invariants on the scenario-A catalog, whose
two table names are distinct. -/
theorem spec_C9_witness :
    (analyze_and_suggest_relationships catScenarioA samplerNoOverlap).total_implicit_relationships
        = ((analyze_and_suggest_relationships catScenarioA samplerNoOverlap).relationships.map
            (fun e => e.2.length)).sum ∧
      (analyze_and_suggest_relationships catScenarioA samplerNoOverlap).high_confidence_relations
        ≤ (analyze_and_suggest_relationships catScenarioA
            samplerNoOverlap).total_implicit_relationships ∧
      (analyze_and_suggest_relationships catScenarioA
            samplerNoOverlap).tables_with_implicit_relations
        = ((analyze_and_suggest_relationships catScenarioA samplerNoOverlap).relationships.map
            Prod.fst).dedup.length ∧
      ∀ e ∈ (analyze_and_suggest_relationships catScenarioA samplerNoOverlap).relationships,
        e.2 ≠ [] :=
  spec_C9 catScenarioA samplerNoOverlap (by decide)
